import Mathlib

/-!
Verification of a dense-coefficient polynomial library (`VecPoly`) with
Horner evaluation, truncating pointwise addition/subtraction, and a
single-sample probabilistic zero/equality test.

The coefficient type `T` is generic in the source; its `Bounded` trait
(minimum / maximum representable value) is embedded as the `BoundedVals`
class, and the thread-local random generator is embedded as an explicit
sampler function `sample : T → T → T` that the zero test calls exactly once
on the derived range endpoints.
-/

namespace CS225

/-- The `Bounded` trait of the source: a minimum and a maximum
representable value, retrievable without an instance. -/
class BoundedVals (T : Type) where
  min_value : T
  max_value : T

/-- VecPoly stores the coefficients of a polynomial highest-degree-first:
`x^2 + 1` is `⟨[1, 0, 1]⟩`. -/
structure VecPoly (T : Type) where
  coefficients : List T

/-- Embedding of `VecPoly::order`: the length of the coefficient vector. -/
def VecPoly.order {T : Type} (p : VecPoly T) : Nat :=
  p.coefficients.length

/-- Embedding of `VecPoly::evaluate`: Horner evaluation.  The accumulator starts at the
first stored coefficient; each remaining coefficient `c` in stored order
updates it to `accumulated * element + c`.  Empty coefficient vector gives
`none`. -/
def VecPoly.evaluate {T : Type} [Add T] [Mul T] (p : VecPoly T) (element : T) :
    Option T :=
  match p.coefficients with
  | [] => none
  | c :: rest => some (rest.foldl (fun accumulated coef => accumulated * element + coef) c)

/-- Embedding of `impl Add for VecPoly`: pointwise addition via `zip`, truncating to the
shorter operand. -/
def VecPoly.add {T : Type} [Add T] (a b : VecPoly T) : VecPoly T :=
  ⟨List.zipWith (fun x y => x + y) a.coefficients b.coefficients⟩

/-- Embedding of `impl Sub for VecPoly`: pointwise subtraction via `zip`, truncating to
the shorter operand. -/
def VecPoly.sub {T : Type} [Sub T] (a b : VecPoly T) : VecPoly T :=
  ⟨List.zipWith (fun x y => x - y) a.coefficients b.coefficients⟩

/-- The body of `is_zero` after the random point has been drawn: evaluate
the polynomial at the point and test the result against the additive
identity; an empty polynomial (no evaluation result) counts as zero. -/
def VecPoly.is_zero_at {T : Type} [Add T] [Mul T] [Zero T] [DecidableEq T]
    (p : VecPoly T) (rand_point : T) : Bool :=
  match p.evaluate rand_point with
  | some eval_result => decide (eval_result = 0)
  | none => true

/-- Embedding of `VecPoly::is_zero`: derive the sampling range by halving the type's
bounds (dividing by the multiplicative identity added to itself), draw one
point from the sampler on that range, and test the evaluation there. -/
def VecPoly.is_zero {T : Type} [Add T] [Mul T] [Div T] [One T] [Zero T]
    [DecidableEq T] [BoundedVals T] (sample : T → T → T) (p : VecPoly T) : Bool :=
  let min_of_range := BoundedVals.min_value / ((1 : T) + (1 : T))
  let max_of_range := BoundedVals.max_value / ((1 : T) + (1 : T))
  let rand_point := sample min_of_range max_of_range
  p.is_zero_at rand_point

/-- Embedding of `VecPoly::eq`: the identity `f = g` iff `f - g = 0`, decided by `is_zero` on the
subtraction. -/
def VecPoly.eq {T : Type} [Add T] [Mul T] [Div T] [Sub T] [One T] [Zero T]
    [DecidableEq T] [BoundedVals T] (sample : T → T → T) (a b : VecPoly T) : Bool :=
  (a.sub b).is_zero sample

/-- Modelled from the spec: `is_zero` restated in the spec's words — derive
`[min_of_range, max_of_range)` by dividing the type's minimum and maximum
representable values by two (the multiplicative identity added to itself),
draw one point from that range, evaluate there, and report whether the
result is the additive identity, treating a polynomial with no coefficients
as zero. -/
def is_zero_spec {T : Type} [Add T] [Mul T] [Div T] [One T] [Zero T]
    [DecidableEq T] [BoundedVals T] (sample : T → T → T) (p : VecPoly T) : Bool :=
  let two : T := (1 : T) + (1 : T)
  let point := sample (BoundedVals.min_value / two) (BoundedVals.max_value / two)
  match p.evaluate point with
  | none => true
  | some r => decide (r = 0)

/-- Direct summation of the stored coefficients, leading coefficient first:
`directSum [c0, …, c_{k}] x = c0 * x^k + … + c_k * x^0`. -/
def directSum {T : Type} [Semiring T] : List T → T → T
  | [], _ => 0
  | c :: rest, x => c * x ^ rest.length + directSum rest x

/-- Horner's fold computes the accumulator contribution plus the direct sum
of the remaining coefficients. -/
theorem foldl_horner {T : Type} [CommSemiring T] (x : T) :
    ∀ (l : List T) (acc : T),
      l.foldl (fun accumulated coef => accumulated * x + coef) acc =
        acc * x ^ l.length + directSum l x
  | [], acc => by simp [directSum]
  | c :: l, acc => by
    rw [List.foldl_cons, foldl_horner x l (acc * x + c), directSum, List.length_cons]
    ring

/-- The recursive direct sum equals the indexed summation with exponent
`n - 1 - i` at index `i`. -/
theorem directSum_eq_sum {T : Type} [Semiring T] (x : T) :
    ∀ cs : List T,
      directSum cs x =
        ∑ i in Finset.range cs.length, cs.getD i 0 * x ^ (cs.length - 1 - i)
  | [] => by simp [directSum]
  | c :: rest => by
    rw [directSum, directSum_eq_sum x rest, List.length_cons, Finset.sum_range_succ']
    simp only [List.getD_cons_succ, List.getD_cons_zero, Nat.add_sub_cancel,
      Nat.sub_zero]
    rw [add_comm]
    congr 1
    refine Finset.sum_congr rfl fun i _ => ?_
    congr 2
    omega

/-- Horner evaluation on a non-empty coefficient list is the direct sum. -/
theorem evaluate_eq_some_directSum {T : Type} [CommSemiring T] (p : VecPoly T) (x : T)
    (h : p.coefficients ≠ []) :
    p.evaluate x = some (directSum p.coefficients x) := by
  obtain ⟨cs⟩ := p
  cases cs with
  | nil => exact absurd rfl h
  | cons c rest =>
    show some _ = some _
    rw [foldl_horner x rest c, directSum]

/-- C1: on every non-empty coefficient sequence, Horner evaluation returns
`some` of a value equal to the direct summation `∑ i, c_i * x^(n-1-i)`. -/
theorem evaluate_eq_directSum {T : Type} [CommSemiring T] (p : VecPoly T) (x : T)
    (h : p.coefficients ≠ []) :
    p.evaluate x =
      some (∑ i in Finset.range p.order, p.coefficients.getD i 0 * x ^ (p.order - 1 - i)) := by
  rw [evaluate_eq_some_directSum p x h, directSum_eq_sum]
  rfl

/-- Witness for C1: coefficients `[1, 0, 1]` evaluated at `x = 2` match the
direct summation, and the value is `5`. -/
theorem evaluate_eq_directSum_witness :
    ((VecPoly.mk ([1, 0, 1] : List ℤ)).evaluate 2 =
      some (∑ i in Finset.range (VecPoly.mk ([1, 0, 1] : List ℤ)).order,
        ([1, 0, 1] : List ℤ).getD i 0 *
          2 ^ ((VecPoly.mk ([1, 0, 1] : List ℤ)).order - 1 - i))) ∧
    (VecPoly.mk ([1, 0, 1] : List ℤ)).evaluate 2 = some 5 :=
  ⟨evaluate_eq_directSum (VecPoly.mk [1, 0, 1]) 2 (by decide), by decide⟩

/-- C2: evaluation returns no value exactly on the empty coefficient
sequence, for every input point. -/
theorem evaluate_none_iff {T : Type} [Add T] [Mul T] (p : VecPoly T) (x : T) :
    p.evaluate x = none ↔ p.coefficients = [] := by
  obtain ⟨cs⟩ := p
  cases cs <;> simp [VecPoly.evaluate]

/-- C3: the order is exactly the stored length, with no trimming of leading
zero coefficients: `[0, 1]` reports order `2`. -/
theorem order_eq_length {T : Type} (p : VecPoly T) :
    p.order = p.coefficients.length ∧ (VecPoly.mk ([0, 1] : List ℤ)).order = 2 :=
  ⟨rfl, rfl⟩

/-- Truncating zip expressed as an indexed map over the shorter length. -/
theorem zipWith_eq_map_range {α β γ : Type} (f : α → β → γ) (d₁ : α) (d₂ : β) :
    ∀ (l₁ : List α) (l₂ : List β),
      List.zipWith f l₁ l₂ =
        (List.range (min l₁.length l₂.length)).map
          (fun i => f (l₁.getD i d₁) (l₂.getD i d₂))
  | [], _ => by simp
  | _ :: _, [] => by simp
  | a :: l₁, b :: l₂ => by
    rw [List.zipWith_cons_cons, zipWith_eq_map_range f d₁ d₂ l₁ l₂]
    simp only [List.length_cons, Nat.succ_min_succ, List.range_succ_eq_map,
      List.map_cons, List.map_map]
    rfl

/-- C4: addition and subtraction combine coefficients pointwise index by
index over exactly the shorter operand's index range (no zero-padding), and
on equal-length operands they are fully pointwise: `[1,2] + [3,4] = [4,6]`
and `[5,5] - [2,3] = [3,2]`. -/
theorem add_sub_pointwise {T : Type} [Add T] [Sub T] [Zero T] (a b : VecPoly T) :
    ((a.add b).coefficients =
      (List.range (min a.order b.order)).map
        (fun i => a.coefficients.getD i 0 + b.coefficients.getD i 0)) ∧
    ((a.sub b).coefficients =
      (List.range (min a.order b.order)).map
        (fun i => a.coefficients.getD i 0 - b.coefficients.getD i 0)) ∧
    ((VecPoly.mk ([1, 2] : List ℤ)).add (VecPoly.mk [3, 4])).coefficients = [4, 6] ∧
    ((VecPoly.mk ([5, 5] : List ℤ)).sub (VecPoly.mk [2, 3])).coefficients = [3, 2] :=
  ⟨zipWith_eq_map_range (fun x y => x + y) 0 0 a.coefficients b.coefficients,
   zipWith_eq_map_range (fun x y => x - y) 0 0 a.coefficients b.coefficients,
   by decide, by decide⟩

/-- C10: when coefficient addition is commutative, polynomial addition is
commutative even for operands of unequal stored length, and the result has
the shorter operand's length. -/
theorem add_comm_vecpoly {T : Type} [Add T] (hcomm : ∀ x y : T, x + y = y + x)
    (a b : VecPoly T) :
    a.add b = b.add a ∧ (a.add b).order = min a.order b.order := by
  constructor
  · exact congrArg VecPoly.mk (List.zipWith_comm_of_comm _ hcomm _ _)
  · simp [VecPoly.add, VecPoly.order, List.length_zipWith]

/-- Witness for C10 on unequal-length integer operands `[1,2]` and `[3]`. -/
theorem add_comm_vecpoly_witness :
    (VecPoly.mk ([1, 2] : List ℤ)).add (VecPoly.mk [3]) =
        (VecPoly.mk ([3] : List ℤ)).add (VecPoly.mk [1, 2]) ∧
    ((VecPoly.mk ([1, 2] : List ℤ)).add (VecPoly.mk [3])).order =
        min (VecPoly.mk ([1, 2] : List ℤ)).order (VecPoly.mk ([3] : List ℤ)).order :=
  add_comm_vecpoly (fun x y => Int.add_comm x y) (VecPoly.mk [1, 2]) (VecPoly.mk [3])

/-- C5: the zero test agrees with the spec's description — halved-bounds
sampling range, a single drawn point, evaluation compared against the
additive identity — and a polynomial with no coefficients tests as zero. -/
theorem is_zero_eq_is_zero_spec {T : Type} [Add T] [Mul T] [Div T] [One T] [Zero T]
    [DecidableEq T] [BoundedVals T] (sample : T → T → T) (p : VecPoly T) :
    p.is_zero sample = is_zero_spec sample p ∧
    p.is_zero sample =
      p.is_zero_at (sample (BoundedVals.min_value / ((1 : T) + 1))
        (BoundedVals.max_value / ((1 : T) + 1))) ∧
    (VecPoly.mk ([] : List T)).is_zero sample = true := by
  refine ⟨?_, rfl, rfl⟩
  show p.is_zero_at _ = _
  rw [VecPoly.is_zero_at, is_zero_spec]
  cases p.evaluate (sample (BoundedVals.min_value / ((1 : T) + 1))
      (BoundedVals.max_value / ((1 : T) + 1))) <;> rfl

/-- The Horner fold started at the additive identity over an all-identity
coefficient list stays at the additive identity. -/
theorem horner_foldl_zero {T : Type} [NonUnitalNonAssocSemiring T] (x : T) :
    ∀ l : List T, (∀ c ∈ l, c = 0) →
      l.foldl (fun accumulated coef => accumulated * x + coef) 0 = 0
  | [], _ => rfl
  | c :: l, h => by
    have hc : c = 0 := h c (List.mem_cons_self c l)
    rw [List.foldl_cons, hc, zero_mul, zero_add]
    exact horner_foldl_zero x l fun d hd => h d (List.mem_cons_of_mem _ hd)

/-- A polynomial whose stored coefficients are all the additive identity
tests as zero at every point. -/
theorem is_zero_at_of_forall_zero {T : Type} [NonUnitalNonAssocSemiring T]
    [DecidableEq T] (p : VecPoly T) (x : T) (h : ∀ c ∈ p.coefficients, c = 0) :
    p.is_zero_at x = true := by
  obtain ⟨cs⟩ := p
  cases cs with
  | nil => rfl
  | cons c rest =>
    have hc : c = 0 := h c (List.mem_cons_self c rest)
    have hfold : rest.foldl (fun accumulated coef => accumulated * x + coef) c = 0 := by
      rw [hc]
      exact horner_foldl_zero x rest fun d hd => h d (List.mem_cons_of_mem _ hd)
    simp [VecPoly.is_zero_at, VecPoly.evaluate, hfold]

/-- A polynomial whose stored coefficients are all the additive identity
passes the randomized zero test for every sampler. -/
theorem is_zero_of_forall_zero {T : Type} [NonUnitalNonAssocSemiring T] [Div T]
    [One T] [DecidableEq T] [BoundedVals T] (sample : T → T → T) (p : VecPoly T)
    (h : ∀ c ∈ p.coefficients, c = 0) : p.is_zero sample = true :=
  is_zero_at_of_forall_zero p _ h

/-- A model instance of the bounds contract for the rationals, standing in
for the source's floating-point minimum and maximum values. -/
instance : BoundedVals ℚ :=
  ⟨-(2 ^ 60), 2 ^ 60⟩

/-- C6: for the zero-length polynomial and for every polynomial whose
coefficients are all the additive identity, the zero test returns true for
every possible sampled point. -/
theorem is_zero_all_zero_coeffs {T : Type} [Field T] [DecidableEq T] [BoundedVals T]
    (sample : T → T → T) (p : VecPoly T) (h : ∀ c ∈ p.coefficients, c = 0) :
    p.is_zero sample = true :=
  is_zero_of_forall_zero sample p h

/-- Witness for C6: coefficients `[0, 0, 0]` over the rationals report
zero. -/
theorem is_zero_all_zero_coeffs_witness :
    (VecPoly.mk ([0, 0, 0] : List ℚ)).is_zero (fun lo _ => lo) = true :=
  is_zero_all_zero_coeffs (fun lo _ => lo) (VecPoly.mk [0, 0, 0]) (by decide)

/-- Truncating zip only reads each operand up to the other's length. -/
theorem zipWith_take_take {α β γ : Type} (f : α → β → γ) :
    ∀ (l₁ : List α) (l₂ : List β),
      List.zipWith f l₁ l₂ = List.zipWith f (l₁.take l₂.length) (l₂.take l₁.length)
  | [], _ => by simp
  | _ :: _, [] => by simp
  | a :: l₁, b :: l₂ => by
    simp only [List.length_cons, List.take_succ_cons, List.zipWith_cons_cons]
    rw [← zipWith_take_take f l₁ l₂]

/-- C7: equality delegates exactly to the zero test of the subtraction, so
two polynomials are compared only over the shorter one's index range. -/
theorem eq_is_is_zero_of_sub {T : Type} [Add T] [Mul T] [Div T] [Sub T] [One T]
    [Zero T] [DecidableEq T] [BoundedVals T] (sample : T → T → T) (a b : VecPoly T) :
    a.eq sample b = (a.sub b).is_zero sample ∧
    (a.sub b).order = min a.order b.order ∧
    (a.sub b).coefficients =
      List.zipWith (fun x y => x - y) (a.coefficients.take b.order)
        (b.coefficients.take a.order) :=
  ⟨rfl,
   by simp [VecPoly.sub, VecPoly.order, List.length_zipWith],
   zipWith_take_take (fun x y => x - y) a.coefficients b.coefficients⟩

/-- Pointwise self-subtraction of a list yields all additive identities. -/
theorem zipWith_sub_self {T : Type} [AddGroup T] :
    ∀ l : List T, List.zipWith (fun x y => x - y) l l = List.replicate l.length 0
  | [] => rfl
  | c :: l => by
    rw [List.zipWith_cons_cons, zipWith_sub_self l]
    simp [List.replicate_succ, sub_self]

/-- C8: equality is reflexive for every sampled point over an exact field,
because `P - P` has all additive-identity coefficients of the same length
as `P`. -/
theorem eq_refl_vecpoly {T : Type} [Field T] [DecidableEq T] [BoundedVals T]
    (sample : T → T → T) (p : VecPoly T) :
    p.eq sample p = true ∧ (p.sub p).coefficients = List.replicate p.order 0 := by
  have hcoef : (p.sub p).coefficients = List.replicate p.order 0 :=
    zipWith_sub_self p.coefficients
  refine ⟨?_, hcoef⟩
  show (p.sub p).is_zero sample = true
  apply is_zero_of_forall_zero
  intro c hc
  rw [hcoef] at hc
  exact List.eq_of_mem_replicate hc

/-- Evaluating the formal polynomial built from the stored coefficients
gives the direct sum. -/
theorem rootPoly_eval {T : Type} [CommSemiring T] (cs : List T) (x : T) :
    (∑ i in Finset.range cs.length,
        Polynomial.C (cs.getD i 0) * Polynomial.X ^ (cs.length - 1 - i)).eval x =
      directSum cs x := by
  rw [directSum_eq_sum, Polynomial.eval_finset_sum]
  simp

/-- The formal polynomial built from the stored coefficients has the stored
coefficient at exponent `n - 1 - i`. -/
theorem rootPoly_coeff {T : Type} [CommSemiring T] (cs : List T) (i0 : Nat)
    (h : i0 < cs.length) :
    (∑ i in Finset.range cs.length,
        Polynomial.C (cs.getD i 0) * Polynomial.X ^ (cs.length - 1 - i)).coeff
      (cs.length - 1 - i0) = cs.getD i0 0 := by
  rw [Polynomial.finset_sum_coeff, Finset.sum_eq_single i0]
  · simp
  · intro b hb hne
    rw [Polynomial.coeff_C_mul, Polynomial.coeff_X_pow, if_neg, mul_zero]
    have hb' := Finset.mem_range.mp hb
    omega
  · intro hi0
    exact absurd (Finset.mem_range.mpr h) hi0

/-- The formal polynomial built from the stored coefficients has degree
less than the stored length. -/
theorem rootPoly_natDegree_le {T : Type} [Field T] (cs : List T) :
    (∑ i in Finset.range cs.length,
        Polynomial.C (cs.getD i 0) * Polynomial.X ^ (cs.length - 1 - i)).natDegree ≤
      cs.length - 1 := by
  apply Polynomial.natDegree_sum_le_of_forall_le
  intro i _
  calc (Polynomial.C (cs.getD i 0) *
          Polynomial.X ^ (cs.length - 1 - i)).natDegree
      ≤ (Polynomial.X ^ (cs.length - 1 - i) : Polynomial T).natDegree :=
        Polynomial.natDegree_C_mul_le _ _
    _ = cs.length - 1 - i := Polynomial.natDegree_X_pow _
    _ ≤ cs.length - 1 := Nat.sub_le _ _

/-- C9: a polynomial with at least one non-identity stored coefficient has
a finite set of fewer than `order` many points at which the evaluation is
the additive identity, so over any finite sampling set the points where the
single-sample zero test misreports zero number at most `order - 1`. -/
theorem schwartz_zippel {T : Type} [Field T] [DecidableEq T] (p : VecPoly T)
    (h : ∃ c ∈ p.coefficients, c ≠ 0) :
    ∃ roots : Finset T, roots.card < p.order ∧
      (∀ x : T, p.is_zero_at x = true → x ∈ roots) ∧
      ∀ S : Finset T, (S.filter (fun x => p.is_zero_at x = true)).card ≤ roots.card := by
  obtain ⟨c, hc_mem, hc_ne⟩ := h
  obtain ⟨i0, hi0, hget⟩ := List.mem_iff_getElem.mp hc_mem
  have hne : p.coefficients ≠ [] := List.ne_nil_of_mem hc_mem
  have hlen : 0 < p.coefficients.length := List.length_pos.mpr hne
  set cs := p.coefficients with hcs
  set q : Polynomial T :=
    ∑ i in Finset.range cs.length,
      Polynomial.C (cs.getD i 0) * Polynomial.X ^ (cs.length - 1 - i) with hq
  have hgetD : cs.getD i0 0 = c := by
    rw [List.getD_eq_getElem cs 0 hi0, hget]
  have hcoeff : q.coeff (cs.length - 1 - i0) = c := by
    rw [hq, rootPoly_coeff cs i0 hi0, hgetD]
  have hq_ne : q ≠ 0 := by
    intro h0
    rw [h0, Polynomial.coeff_zero] at hcoeff
    exact hc_ne hcoeff.symm
  have hmem : ∀ x : T, p.is_zero_at x = true → x ∈ q.roots.toFinset := by
    intro x hx
    have hev : p.evaluate x = some (directSum cs x) :=
      evaluate_eq_some_directSum p x hne
    unfold VecPoly.is_zero_at at hx
    rw [hev] at hx
    have hroot : directSum cs x = 0 := of_decide_eq_true hx
    have heval : q.eval x = 0 := by
      rw [hq, rootPoly_eval]
      exact hroot
    rw [Multiset.mem_toFinset, Polynomial.mem_roots']
    exact ⟨hq_ne, heval⟩
  refine ⟨q.roots.toFinset, ?_, hmem, ?_⟩
  · have h1 : q.roots.toFinset.card ≤ Multiset.card q.roots :=
      Multiset.toFinset_card_le _
    have h2 : Multiset.card q.roots ≤ q.natDegree := Polynomial.card_roots' q
    have h3 : q.natDegree ≤ cs.length - 1 := by
      rw [hq]
      exact rootPoly_natDegree_le cs
    have h4 : p.order = cs.length := rfl
    omega
  · intro S
    apply Finset.card_le_card
    intro x hx
    rw [Finset.mem_filter] at hx
    exact hmem x hx.2

/-- Witness for C9 at the rational polynomial with coefficients
`[1, 0, 1]`. -/
theorem schwartz_zippel_witness :
    (∃ c ∈ ([1, 0, 1] : List ℚ), c ≠ 0) ∧
    ∃ roots : Finset ℚ, roots.card < (VecPoly.mk ([1, 0, 1] : List ℚ)).order ∧
      (∀ x : ℚ, (VecPoly.mk ([1, 0, 1] : List ℚ)).is_zero_at x = true → x ∈ roots) ∧
      ∀ S : Finset ℚ,
        (S.filter
          (fun x => (VecPoly.mk ([1, 0, 1] : List ℚ)).is_zero_at x = true)).card ≤
          roots.card :=
  ⟨⟨1, by decide, by decide⟩,
   schwartz_zippel (VecPoly.mk [1, 0, 1]) ⟨1, by decide, by decide⟩⟩

end CS225
